import Mathlib

/-!
Verification of the package-resolver core (`lib/wasi/src/runtime/resolver/types.rs`):
the `WebcIdentifier` textual grammar (`from_str`), its `Display` formatting, the
blanket `Deref` delegation rule for `PackageResolver`, and the single-flight
in-memory caching decorator described by the specification.

Strings are embedded as Lean `String`s; the character-level scanning of the Rust
code is carried out on `List Char` (a Rust `&str` is a sequence of `char`s when
iterated with `chars()` / `char_indices()`, with byte offsets recovered from the
UTF-8 size of each scanned character).
-/

namespace Resolver

instance {ε α : Type _} [DecidableEq ε] [DecidableEq α] : DecidableEq (Except ε α) :=
  fun a b =>
    match a, b with
    | .ok x, .ok y =>
      if h : x = y then .isTrue (by rw [h]) else .isFalse (by intro hc; cases hc; exact h rfl)
    | .ok _, .error _ => .isFalse (by intro hc; cases hc)
    | .error _, .ok _ => .isFalse (by intro hc; cases hc)
    | .error x, .error y =>
      if h : x = y then .isTrue (by rw [h]) else .isFalse (by intro hc; cases hc; exact h rfl)

/-- The character class accepted in `full_name`, from the `matches!` pattern in
`WebcIdentifier::from_str`: `'a'..='z' | 'A'..='Z' | '0'..='9' | '.' | '-' | '_' | '/'`. -/
def isIdentChar (c : Char) : Bool :=
  ('a' ≤ c && c ≤ 'z') || ('A' ≤ c && c ≤ 'Z') || ('0' ≤ c && c ≤ '9') ||
  c = '.' || c = '-' || c = '_' || c = '/'

/-- Rust `str::split_once(sep)`: split at the first occurrence of `sep`,
returning the parts before and after it, or `none` when `sep` does not occur. -/
def splitOnceAt (sep : Char) : List Char → Option (List Char × List Char)
  | [] => none
  | c :: rest =>
    if c = sep then some ([], rest)
    else match splitOnceAt sep rest with
      | none => none
      | some (a, b) => some (c :: a, b)

/-- The scan `full_name.char_indices().find(|(_, c)| !matches!(...))`: the first
character outside the accepted class together with its byte offset.  `off` is
the byte offset of the head of the remaining list; Rust `char_indices` yields
byte indices, so each accepted character advances the offset by its UTF-8 size. -/
def findInvalid (off : Nat) : List Char → Option (Nat × Char)
  | [] => none
  | c :: rest =>
    if isIdentChar c then findInvalid (off + c.utf8Size) rest
    else some (off, c)

/-! ### Semantic-version ranges

Modelled from the spec: the `version` field is a `semver::VersionReq`, an
external crate not part of this repository.  The spec requires "standard
semantic-version range syntax (exact versions, comparison operators,
wildcards)", with `*` (and an absent version segment) denoting the
unconstrained "match any version" range.  The model below follows the crate's
grammar: a requirement is either `*` or a comma-separated list of comparators;
a comparator is an optional operator (`=`, `>`, `>=`, `<`, `<=`, `~`, `^`,
defaulting to caret) followed by `major[.minor[.patch[-pre]]]`, where the
minor/patch position may instead hold a wildcard (`*`/`x`/`X`); numeric parts
have no leading zeros; formatting prints the canonical form back. -/

/-- Comparator operators.  `wildcard` is the operator recorded when a wildcard
appears in the minor/patch position; a bare version defaults to `caret`. -/
inductive Op
  | exact
  | greater
  | greaterEq
  | less
  | lessEq
  | tilde
  | caret
  | wildcard
deriving DecidableEq, Repr

/-- One comparator of a version requirement. -/
structure Comparator where
  op : Op
  major : Nat
  minor : Option Nat
  patch : Option Nat
  pre : List Char
deriving DecidableEq, Repr

/-- A version requirement: a conjunction of comparators.  The empty list is the
unconstrained requirement (`VersionReq::STAR`, displayed `*`). -/
structure VersionReq where
  comparators : List Comparator
deriving DecidableEq, Repr

/-- `VersionReq::STAR`, the "match any version" requirement. -/
def VersionReq.star : VersionReq := ⟨[]⟩

/-- Take the longest prefix of decimal digits. -/
def takeDigits : List Char → List Char × List Char
  | [] => ([], [])
  | c :: rest =>
    if c.isDigit then
      let (d, r) := takeDigits rest
      (c :: d, r)
    else ([], c :: rest)

/-- Numeric value of a digit character. -/
def digitVal (c : Char) : Nat := c.toNat - 48

/-- Decimal value of a digit string. -/
def digitsToNat (ds : List Char) : Nat := ds.foldl (fun acc c => acc * 10 + digitVal c) 0

/-- Parse a decimal number (nonempty digit run, no leading zeros), returning it
with the unconsumed remainder. -/
def parseNat (cs : List Char) : Option (Nat × List Char) :=
  match takeDigits cs with
  | ([], _) => none
  | (d :: ds, rest) => if d = '0' ∧ ds ≠ [] then none else some (digitsToNat (d :: ds), rest)

/-- Parse an optional comparison operator prefix. -/
def parseOp (cs : List Char) : Option Op × List Char :=
  match cs with
  | [] => (none, [])
  | c :: rest =>
    if c = '<' then
      match rest with
      | c2 :: rest2 => if c2 = '=' then (some .lessEq, rest2) else (some .less, rest)
      | [] => (some .less, rest)
    else if c = '>' then
      match rest with
      | c2 :: rest2 => if c2 = '=' then (some .greaterEq, rest2) else (some .greater, rest)
      | [] => (some .greater, rest)
    else if c = '=' then (some .exact, rest)
    else if c = '~' then (some .tilde, rest)
    else if c = '^' then (some .caret, rest)
    else (none, cs)

/-- A wildcard character in the minor/patch position. -/
def isWildcardChar (c : Char) : Bool := c = '*' || c = 'x' || c = 'X'

/-- Split a list on every occurrence of `sep` (the separators are dropped;
`n + 1` separators yield `n + 2` parts). -/
def splitOnChar (sep : Char) : List Char → List (List Char)
  | [] => [[]]
  | c :: rest =>
    if c = sep then [] :: splitOnChar sep rest
    else match splitOnChar sep rest with
      | [] => [[c]]
      | s :: ss => (c :: s) :: ss

/-- A valid pre-release identifier segment: nonempty, alphanumeric or hyphen
characters, and no leading zero when purely numeric. -/
def validPreSegment (s : List Char) : Bool :=
  match s with
  | [] => false
  | c :: rest =>
    (c :: rest).all (fun ch => ch.isAlphanum || ch = '-') &&
    !(c = '0' && !rest.isEmpty && (c :: rest).all Char.isDigit)

/-- A valid pre-release string: dot-separated valid segments. -/
def validPre (cs : List Char) : Bool := (splitOnChar '.' cs).all validPreSegment

/-- Continue a comparator after `major.minor.patch`: optional `-pre`. -/
def afterPatch (og : Option Op) (maj minr pat : Nat) (rest : List Char) : Option Comparator :=
  match rest with
  | [] => some ⟨og.getD .caret, maj, some minr, some pat, []⟩
  | c :: pre =>
    if c = '-' then
      if validPre pre then some ⟨og.getD .caret, maj, some minr, some pat, pre⟩ else none
    else none

/-- Continue a comparator after `major.minor`: end, `.patch`, or `.*`. -/
def afterMinor (og : Option Op) (maj minr : Nat) (rest : List Char) : Option Comparator :=
  match rest with
  | [] => some ⟨og.getD .caret, maj, some minr, none, []⟩
  | c :: rest2 =>
    if c = '.' then
      match rest2 with
      | [] => none
      | c2 :: rest3 =>
        if isWildcardChar c2 then
          if og = none ∧ rest3 = [] then some ⟨.wildcard, maj, some minr, none, []⟩ else none
        else
          match parseNat rest2 with
          | none => none
          | some (pat, rest4) => afterPatch og maj minr pat rest4
    else none

/-- Continue a comparator after `major`: end, `.minor`, or `.*`. -/
def afterMajor (og : Option Op) (maj : Nat) (rest : List Char) : Option Comparator :=
  match rest with
  | [] => some ⟨og.getD .caret, maj, none, none, []⟩
  | c :: rest2 =>
    if c = '.' then
      match rest2 with
      | [] => none
      | c2 :: rest3 =>
        if isWildcardChar c2 then
          if og = none ∧ rest3 = [] then some ⟨.wildcard, maj, none, none, []⟩ else none
        else
          match parseNat rest2 with
          | none => none
          | some (minr, rest3b) => afterMinor og maj minr rest3b
    else none

/-- Strip trailing spaces. -/
def trimRight : List Char → List Char
  | [] => []
  | c :: rest =>
    match trimRight rest with
    | [] => if c = ' ' then [] else [c]
    | r => c :: r

/-- Strip leading and trailing spaces. -/
def trimSpaces (cs : List Char) : List Char := trimRight (cs.dropWhile (· = ' '))

/-- Parse one comparator (one comma-separated part of a requirement). -/
def parseComparator (part : List Char) : Option Comparator :=
  let t := trimSpaces part
  let p := parseOp t
  let r2 := p.2.dropWhile (· = ' ')
  match parseNat r2 with
  | none => none
  | some (maj, rest) => afterMajor p.1 maj rest

/-- Parse every comma-separated part as a comparator; any failure fails the
whole requirement. -/
def parseComparators : List (List Char) → Option (List Comparator)
  | [] => some []
  | p :: ps =>
    match parseComparator p with
    | none => none
    | some c =>
      match parseComparators ps with
      | none => none
      | some cs => some (c :: cs)

/-- Parse a version requirement: `*` (the unconstrained requirement) or a
comma-separated list of comparators. -/
def reqParse (cs : List Char) : Option VersionReq :=
  if trimSpaces cs = ['*'] then some VersionReq.star
  else
    match parseComparators (splitOnChar ',' cs) with
    | none => none
    | some comps => some ⟨comps⟩

/-- Decimal digits, most significant first; structural on a fuel argument so
that it evaluates by reduction (any `fuel > n` yields the digits of `n`). -/
def natDecimalAux : Nat → Nat → List Char
  | 0, _ => []
  | fuel + 1, n =>
    if n < 10 then [Char.ofNat (48 + n)]
    else natDecimalAux fuel (n / 10) ++ [Char.ofNat (48 + n % 10)]

/-- Decimal digits of a natural number, most significant first. -/
def natDecimal (n : Nat) : List Char := natDecimalAux (n + 1) n

/-- The textual form of an operator. -/
def opChars : Op → List Char
  | .exact => ['=']
  | .greater => ['>']
  | .greaterEq => ['>', '=']
  | .less => ['<']
  | .lessEq => ['<', '=']
  | .tilde => ['~']
  | .caret => ['^']
  | .wildcard => []

/-- The displayed form of a comparator after its major number:
`[.minor[.patch[-pre]]]`, with `.*` closing a wildcard comparator. -/
def compTail (c : Comparator) : List Char :=
  match c.minor with
  | none => if c.op = .wildcard then ['.', '*'] else []
  | some m => '.' :: natDecimal m ++
    (match c.patch with
     | none => if c.op = .wildcard then ['.', '*'] else []
     | some p => '.' :: natDecimal p ++ (if c.pre.isEmpty then [] else '-' :: c.pre))

/-- Display one comparator: operator, then `major[.minor[.patch[-pre]]]`, with
`.*` closing a wildcard comparator. -/
def comparatorDisplay (c : Comparator) : List Char :=
  opChars c.op ++ natDecimal c.major ++ compTail c

/-- Display the tail of a comparator list, each preceded by `", "`. -/
def reqDisplayTail : List Comparator → List Char
  | [] => []
  | c :: rest => ',' :: ' ' :: comparatorDisplay c ++ reqDisplayTail rest

/-- Display a version requirement: `*` when unconstrained, otherwise the
comparators joined by `", "`. -/
def reqDisplay (r : VersionReq) : List Char :=
  match r.comparators with
  | [] => ['*']
  | c :: rest => comparatorDisplay c ++ reqDisplayTail rest

/-! ### The identifier -/

/-- Where a package's bytes come from (`Locator`).  The `PathBuf` and `Url`
payloads are embedded as the strings they display as. -/
inductive Locator
  | Registry
  | Local (path : String)
  | Url (url : String)
deriving DecidableEq, Repr

/-- `WebcIdentifier`: a package's full name, locator, and version constraint. -/
structure WebcIdentifier where
  full_name : String
  locator : Locator
  version : VersionReq
deriving DecidableEq, Repr

/-- The failure cases of `WebcIdentifier::from_str`: an invalid character in
the name (reported with the character and its byte offset), or an invalid
version segment (reported with the offending version string, from the
`with_context` message `Invalid version number, "{version}"`). -/
inductive ParseError
  | invalidCharacter (c : Char) (offset : Nat)
  | invalidVersion (version : String)
deriving DecidableEq, Repr

/-- `WebcIdentifier::from_str`: split at the first `@` (an absent version
segment defaults to `"*"`), reject the first invalid character of the name,
parse the version segment as a semver requirement, and build a `Registry`
identifier. -/
def fromStr (s : String) : Except ParseError WebcIdentifier :=
  let p := match splitOnceAt '@' s.data with
    | some nv => nv
    | none => (s.data, ['*'])
  match findInvalid 0 p.1 with
  | some ic => .error (.invalidCharacter ic.2 ic.1)
  | none =>
    match reqParse p.2 with
    | none => .error (.invalidVersion (String.mk p.2))
    | some v => .ok ⟨String.mk p.1, .Registry, v⟩

/-- `WebcIdentifier::parse`, which just defers to `from_str`. -/
def WebcIdentifier.parse (s : String) : Except ParseError WebcIdentifier := fromStr s

/-- The name portion of an identifier string: the text before the first `@`,
or the whole string when there is no `@`. -/
def namePortion (cs : List Char) : List Char :=
  match splitOnceAt '@' cs with
  | some p => p.1
  | none => cs

/-- The UTF-8 byte length of a character sequence (Rust `str::len` of the
corresponding substring). -/
def byteLen (cs : List Char) : Nat := (cs.map Char.utf8Size).sum

/-- The invariants every comparator produced by `parseComparator` enjoys; they
are exactly what makes its display re-parse to itself. -/
structure CompWF (c : Comparator) : Prop where
  patch_minor : c.patch.isSome → c.minor.isSome
  wild : c.op = .wildcard → c.patch = none ∧ c.pre = []
  pre_ok : c.pre ≠ [] → c.patch.isSome ∧ validPre c.pre = true

/-- The `Display` impl for `WebcIdentifier`: `{full_name}@{version}`, then a
parenthesised path or URL for the non-registry locators. -/
def WebcIdentifier.display (id : WebcIdentifier) : String :=
  id.full_name ++ "@" ++ String.mk (reqDisplay id.version) ++
  (match id.locator with
   | .Registry => ""
   | .Local path => " (" ++ path ++ ")"
   | .Url url => " (" ++ url ++ ")")

/-! ### The resolver contract and the blanket `Deref` delegation -/

/-- The one capability of a `PackageResolver`: `resolve_package` takes an
identifier and an HTTP client and yields a `BinaryPackage` or a
`ResolverError`.  The client, package, and error types are opaque to this core,
so they are type parameters; the suspension of the async call is immaterial to
its value, so the operation is embedded as a function. -/
def ResolveFn (Client Pkg Err : Type) := WebcIdentifier → Client → Except Err Pkg

/-- A dereference-capable ownership wrapper (`D: Deref<Target = R>` with
`R: PackageResolver`): all that the blanket impl uses is that dereferencing it
yields a resolver, so the wrapper is embedded as a carrier of its target's
`resolve_package` capability. -/
structure DerefWrapper (Client Pkg Err : Type) where
  target : ResolveFn Client Pkg Err

/-- The blanket `impl<D, R> PackageResolver for D`: the wrapper's
`resolve_package` is `(**self).resolve_package(pkg, client)`. -/
def DerefWrapper.resolve_package (d : DerefWrapper Client Pkg Err)
    (pkg : WebcIdentifier) (client : Client) : Except Err Pkg :=
  d.target pkg client

/-! ### The caching decorator

Modelled from the spec: `PackageResolver::with_cache` wraps a resolver in an
`InMemoryCache`, whose implementation is not among the given sources (only the
constructor call appears); the spec's §4.3 fills in the contract.  The model is
a state machine: the state holds the map of completed successful results, the
per-key list of callers awaiting an in-flight resolution, a log of inner
resolver invocations, and a log of outcomes delivered to callers.  A `request`
event is a caller starting a resolution (returning at once on a hit, joining
the in-flight waiters, or — atomically — registering as the sole waiter and
invoking the inner resolver); a `complete` event is the in-flight resolution
finishing, broadcasting its outcome to every waiter, and caching it only on
success. -/
structure CacheState (K C R E : Type) where
  cache : K → Option R
  inflight : K → Option (List C)
  innerCalls : List K
  delivered : List (C × K × Except E R)

/-- An event of the caching decorator's state machine. -/
inductive CacheEvent (K C R E : Type)
  | request (c : C) (k : K)
  | complete (k : K) (out : Except E R)

/-- Initial cache state: nothing cached, nothing in flight. -/
def CacheState.init (K C R E : Type) : CacheState K C R E :=
  ⟨fun _ => none, fun _ => none, [], []⟩

/-- One step of the caching decorator. -/
def cacheStep [DecidableEq K] (s : CacheState K C R E) :
    CacheEvent K C R E → CacheState K C R E
  | .request c k =>
    match s.cache k with
    | some r => { s with delivered := (c, k, .ok r) :: s.delivered }
    | none =>
      match s.inflight k with
      | some ws => { s with inflight := fun j => if j = k then some (ws ++ [c]) else s.inflight j }
      | none =>
        { s with
          inflight := fun j => if j = k then some [c] else s.inflight j
          innerCalls := k :: s.innerCalls }
  | .complete k out =>
    match s.inflight k with
    | none => s
    | some ws =>
      { s with
        delivered := ws.map (fun c => (c, k, out)) ++ s.delivered
        inflight := fun j => if j = k then none else s.inflight j
        cache := fun j =>
          if j = k then
            match out with
            | .ok r => some r
            | .error _ => s.cache j
          else s.cache j }

/-- Run a sequence of events from a state. -/
def cacheRun [DecidableEq K] (s : CacheState K C R E) (es : List (CacheEvent K C R E)) :
    CacheState K C R E :=
  es.foldl cacheStep s

/-! ## Lemmas about the character scans -/

theorem splitOnceAt_eq_none {sep : Char} {cs : List Char} (h : sep ∉ cs) :
    splitOnceAt sep cs = none := by
  induction cs with
  | nil => rfl
  | cons c rest ih =>
    simp only [List.mem_cons, not_or] at h
    simp only [splitOnceAt, if_neg (Ne.symm h.1), ih h.2]

theorem splitOnceAt_append_sep {sep : Char} {a : List Char} (h : sep ∉ a) (b : List Char) :
    splitOnceAt sep (a ++ sep :: b) = some (a, b) := by
  induction a with
  | nil => simp [splitOnceAt]
  | cons c rest ih =>
    simp only [List.mem_cons, not_or] at h
    simp only [List.cons_append, splitOnceAt, if_neg (Ne.symm h.1), List.append_eq, ih h.2]

theorem findInvalid_eq_none {cs : List Char} (h : ∀ c ∈ cs, isIdentChar c = true)
    (off : Nat) : findInvalid off cs = none := by
  induction cs generalizing off with
  | nil => rfl
  | cons c rest ih =>
    simp only [List.mem_cons] at h
    simp only [findInvalid, h c (Or.inl rfl), if_pos]
    exact ih (fun x hx => h x (Or.inr hx)) _

theorem findInvalid_none_all {cs : List Char} {off : Nat} (h : findInvalid off cs = none) :
    ∀ c ∈ cs, isIdentChar c = true := by
  induction cs generalizing off with
  | nil => intro c hc; cases hc
  | cons c rest ih =>
    intro x hx
    by_cases hc : isIdentChar c = true
    · simp only [findInvalid, hc, if_pos] at h
      rcases List.mem_cons.1 hx with rfl | hx2
      · exact hc
      · exact ih h x hx2
    · simp only [findInvalid, hc, if_neg, Bool.false_eq_true, if_false] at h
      cases h

theorem findInvalid_append {pre : List Char} {c : Char} (post : List Char)
    (hpre : ∀ x ∈ pre, isIdentChar x = true) (hbad : isIdentChar c = false) (off : Nat) :
    findInvalid off (pre ++ c :: post) = some (off + byteLen pre, c) := by
  induction pre generalizing off with
  | nil =>
    simp only [List.nil_append, findInvalid, hbad, Bool.false_eq_true, if_false, byteLen,
      List.map_nil, List.sum_nil, Nat.add_zero]
  | cons a rest ih =>
    simp only [List.mem_cons, forall_eq_or_imp] at hpre
    simp only [List.cons_append, findInvalid, hpre.1, if_pos, List.append_eq]
    rw [ih hpre.2 (off + a.utf8Size)]
    have harith : off + a.utf8Size + byteLen rest = off + byteLen (a :: rest) := by
      simp only [byteLen, List.map_cons, List.sum_cons]
      omega
    rw [harith]

/-- Inversion of a successful parse: the locator is `Registry`, the name
passed the character scan, and the version is in the image of `reqParse`. -/
theorem fromStr_ok {s : String} {id : WebcIdentifier} (h : fromStr s = .ok id) :
    id.locator = .Registry ∧ (∀ c ∈ id.full_name.data, isIdentChar c = true) ∧
    ∃ v, reqParse v = some id.version := by
  simp only [fromStr] at h
  rcases hs : splitOnceAt '@' s.data with _ | p <;> rw [hs] at h
  · rcases hf : findInvalid 0 s.data with _ | iv <;> rw [hf] at h
    · rcases hq : reqParse ['*'] with _ | vr <;> rw [hq] at h
      · cases h
      · cases h
        exact ⟨rfl, findInvalid_none_all hf, ['*'], hq⟩
    · cases h
  · rcases hf : findInvalid 0 p.1 with _ | iv <;> rw [hf] at h
    · rcases hq : reqParse p.2 with _ | vr <;> rw [hq] at h
      · cases h
      · cases h
        exact ⟨rfl, findInvalid_none_all hf, p.2, hq⟩
    · cases h

/-! ## The claims about parsing -/

/-- C1: an input with no `@` whose characters all lie in the class `a-z A-Z 0-9 . - _ /`
parses successfully to an identifier whose `full_name` is the whole input,
whose locator is `Registry`, and whose version is the unconstrained range. -/
theorem parse_without_at_succeeds (s : String) (h1 : '@' ∉ s.data)
    (h2 : ∀ c ∈ s.data, isIdentChar c = true) :
    fromStr s = .ok ⟨s, .Registry, VersionReq.star⟩ := by
  simp only [fromStr, splitOnceAt_eq_none h1, findInvalid_eq_none h2 0]
  rfl

/-- Witness for C1 at the spec's example: `parse("first")`. -/
theorem parse_without_at_succeeds_witness :
    ('@' ∉ "first".data) ∧ (∀ c ∈ "first".data, isIdentChar c = true) ∧
    fromStr "first" = .ok ⟨"first", .Registry, VersionReq.star⟩ :=
  ⟨by decide, by decide, parse_without_at_succeeds "first" (by decide) (by decide)⟩

/-- C2: when the name portion (before the first `@`, or the whole input) is a
valid prefix followed by a character outside the class `a-z A-Z 0-9 . - _ /`, parsing fails
reporting that first offending character and its byte offset. -/
theorem parse_reports_first_invalid_character (s : String) (pre : List Char) (c : Char)
    (post : List Char) (hsplit : namePortion s.data = pre ++ c :: post)
    (hpre : ∀ x ∈ pre, isIdentChar x = true) (hbad : isIdentChar c = false) :
    fromStr s = .error (.invalidCharacter c (byteLen pre)) := by
  rcases hs : splitOnceAt '@' s.data with _ | p
  · have hn : s.data = pre ++ c :: post := by
      simpa only [namePortion, hs] using hsplit
    simp only [fromStr, hs]
    rw [hn]
    simp only [findInvalid_append post hpre hbad 0, Nat.zero_add]
  · have hn : p.1 = pre ++ c :: post := by
      simpa only [namePortion, hs] using hsplit
    simp only [fromStr, hs]
    rw [hn]
    simp only [findInvalid_append post hpre hbad 0, Nat.zero_add]

/-- Witness for C2 at the spec's example: `parse("bad name")` fails at the
space character, byte offset 3. -/
theorem parse_reports_first_invalid_character_witness :
    fromStr "bad name" = .error (.invalidCharacter ' ' 3) :=
  (parse_reports_first_invalid_character "bad name" "bad".data ' ' "name".data
    (by decide) (by decide) (by decide)).trans (by decide)

/-- C3: every successful parse yields a `Registry` identifier whose name has
no `@` and only characters in the class `a-z A-Z 0-9 . - _ /`; `Local`/`Url` locators are
never produced by parsing. -/
theorem parse_result_invariants (s : String) (id : WebcIdentifier)
    (h : fromStr s = .ok id) :
    id.locator = .Registry ∧ '@' ∉ id.full_name.data ∧
    ∀ c ∈ id.full_name.data, isIdentChar c = true := by
  obtain ⟨hloc, hname, -⟩ := fromStr_ok h
  refine ⟨hloc, fun hat => ?_, hname⟩
  have := hname '@' hat
  simp [isIdentChar] at this

/-- Witness for C3 at `parse("ns/pkg@1.2.3")`. -/
theorem parse_result_invariants_witness :
    fromStr "ns/pkg@1.2.3"
      = .ok ⟨"ns/pkg", .Registry, ⟨[⟨.caret, 1, some 2, some 3, []⟩]⟩⟩ ∧
    ((⟨"ns/pkg", .Registry, ⟨[⟨.caret, 1, some 2, some 3, []⟩]⟩⟩ : WebcIdentifier).locator
        = .Registry ∧
      '@' ∉ ("ns/pkg" : String).data ∧
      ∀ c ∈ ("ns/pkg" : String).data, isIdentChar c = true) :=
  ⟨by decide, parse_result_invariants "ns/pkg@1.2.3" _ (by decide)⟩

/-- C5: for a valid name, appending the explicit wildcard constraint `@*`
parses to exactly the same identifier as omitting the version segment. -/
theorem explicit_star_equals_omitted (s : String) (h1 : '@' ∉ s.data)
    (_h2 : ∀ c ∈ s.data, isIdentChar c = true) :
    fromStr (s ++ "@*") = fromStr s := by
  have hdata : (s ++ "@*").data = s.data ++ '@' :: ['*'] := by
    simp [String.data_append]
  simp only [fromStr, hdata, splitOnceAt_append_sep h1, splitOnceAt_eq_none h1]

/-- Witness for C5 at the spec's example: `parse("ns/pkg@*") = parse("ns/pkg")`. -/
theorem explicit_star_equals_omitted_witness :
    fromStr ("ns/pkg" ++ "@*") = fromStr "ns/pkg" :=
  explicit_star_equals_omitted "ns/pkg" (by decide) (by decide)

/-- C6: a valid name with a version segment that is not a valid semver range
fails, and the error names the offending version string. -/
theorem parse_invalid_version_error (s : String) (n v : List Char)
    (hsplit : splitOnceAt '@' s.data = some (n, v))
    (hname : ∀ c ∈ n, isIdentChar c = true) (hver : reqParse v = none) :
    fromStr s = .error (.invalidVersion (String.mk v)) := by
  simp only [fromStr, hsplit, findInvalid_eq_none hname 0, hver]

/-- Witness for C6 at the spec's example: `parse("pkg@not-a-version")`. -/
theorem parse_invalid_version_error_witness :
    fromStr "pkg@not-a-version" = .error (.invalidVersion "not-a-version") :=
  parse_invalid_version_error "pkg@not-a-version" "pkg".data "not-a-version".data
    (by decide) (by decide) (by decide)

/-- C10: parsing imposes no non-emptiness requirement on the name: both `""`
and `"@1.0.0"` parse successfully with an empty `full_name`. -/
theorem parse_empty_name_succeeds :
    fromStr "" = .ok ⟨"", .Registry, VersionReq.star⟩ ∧
    fromStr "@1.0.0" = .ok ⟨"", .Registry, ⟨[⟨.caret, 1, some 0, some 0, []⟩]⟩⟩ := by
  constructor <;> decide

/-! ## The claims about formatting and the resolver contract -/

/-- C7: formatting always produces `full_name@version`; a locator suffix (the
parenthesised path or URL) is appended exactly for the non-registry locators. -/
theorem display_locator_suffix (n : String) (v : VersionReq) (p u : String) :
    (WebcIdentifier.mk n .Registry v).display = n ++ "@" ++ String.mk (reqDisplay v) ∧
    (WebcIdentifier.mk n (.Local p) v).display
      = n ++ "@" ++ String.mk (reqDisplay v) ++ " (" ++ p ++ ")" ∧
    (WebcIdentifier.mk n (.Url u) v).display
      = n ++ "@" ++ String.mk (reqDisplay v) ++ " (" ++ u ++ ")" := by
  refine ⟨?_, ?_, ?_⟩ <;>
    apply String.ext <;>
    simp [WebcIdentifier.display, String.data_append]

/-- C8: the blanket `Deref` impl makes any ownership wrapper a resolver that
forwards `resolve_package` to the wrapped resolver unchanged. -/
theorem deref_wrapper_forwards (Client Pkg Err : Type)
    (d : DerefWrapper Client Pkg Err) (pkg : WebcIdentifier) (client : Client) :
    d.resolve_package pkg client = d.target pkg client := rfl

/-! ## The caching decorator -/

theorem cacheRun_requests {K C R E : Type} [DecidableEq K] (k : K) :
    ∀ (rest : List C) (s : CacheState K C R E) (ws : List C),
      s.cache k = none → s.inflight k = some ws →
      (cacheRun s (rest.map (fun c => .request c k))).cache k = none ∧
      (cacheRun s (rest.map (fun c => .request c k))).inflight k = some (ws ++ rest) ∧
      (cacheRun s (rest.map (fun c => .request c k))).innerCalls = s.innerCalls ∧
      (cacheRun s (rest.map (fun c => .request c k))).delivered = s.delivered := by
  intro rest
  induction rest with
  | nil =>
    intro s ws hc hf
    simpa [cacheRun] using ⟨hc, hf⟩
  | cons c rest ih =>
    intro s ws hc hf
    have hstep : cacheStep s (.request c k) =
        { s with inflight := fun j => if j = k then some (ws ++ [c]) else s.inflight j } := by
      simp only [cacheStep, hc, hf]
    have hrun : cacheRun s ((c :: rest).map (fun x => .request x k)) =
        cacheRun (cacheStep s (.request c k)) (rest.map (fun x => .request x k)) := rfl
    rw [hrun, hstep]
    have h := ih { s with inflight := fun j => if j = k then some (ws ++ [c]) else s.inflight j }
      (ws ++ [c]) hc (by simp)
    simpa [List.append_assoc] using h

/-- C9 (spec-modelled): under the caching decorator, N concurrent resolutions
of the same identifier that all begin before the first completes cause exactly
one invocation of the inner resolver; every one of the N callers receives the
one outcome of that single in-flight resolution; and a failed outcome is not
cached, so a subsequent request for that identifier invokes the inner resolver
again. -/
theorem cache_single_flight (K C R E : Type) [DecidableEq K]
    (s0 : CacheState K C R E) (k : K) (cs : List C) (out : Except E R)
    (hc : s0.cache k = none) (hf : s0.inflight k = none) (hne : cs ≠ []) :
    let s1 := cacheRun s0 (cs.map (fun c => .request c k))
    let s2 := cacheStep s1 (.complete k out)
    s1.innerCalls = k :: s0.innerCalls ∧
    s1.inflight k = some cs ∧
    s2.delivered = cs.map (fun c => (c, k, out)) ++ s1.delivered ∧
    (∀ c ∈ cs, (c, k, out) ∈ s2.delivered) ∧
    (∀ e, out = .error e →
      s2.cache k = none ∧
      ∀ c2 : C, (cacheStep s2 (.request c2 k)).innerCalls = k :: s2.innerCalls) := by
  obtain ⟨c, rest, rfl⟩ : ∃ c rest, cs = c :: rest := by
    cases cs with
    | nil => exact absurd rfl hne
    | cons a b => exact ⟨a, b, rfl⟩
  intro s1 s2
  · have hstep : cacheStep s0 (.request c k) =
        { s0 with
          inflight := fun j => if j = k then some [c] else s0.inflight j
          innerCalls := k :: s0.innerCalls } := by
      simp only [cacheStep, hc, hf]
    have hs1 : s1 = cacheRun (cacheStep s0 (.request c k)) (rest.map (fun x => .request x k)) :=
      rfl
    rw [hstep] at hs1
    obtain ⟨h1c, h1f, h1i, h1d⟩ := cacheRun_requests k rest
      { s0 with
        inflight := fun j => if j = k then some [c] else s0.inflight j
        innerCalls := k :: s0.innerCalls }
      [c] hc (by simp)
    rw [← hs1] at h1c h1f h1i h1d
    simp only [List.singleton_append] at h1f
    have hs2 : s2 =
        { s1 with
          delivered := (c :: rest).map (fun x => (x, k, out)) ++ s1.delivered
          inflight := fun j => if j = k then none else s1.inflight j
          cache := fun j =>
            if j = k then
              match out with
              | .ok r => some r
              | .error _ => s1.cache j
            else s1.cache j } := by
      show cacheStep s1 (.complete k out) = _
      simp only [cacheStep, h1f]
    refine ⟨h1i, h1f, by rw [hs2], ?_, ?_⟩
    · intro x hx
      rw [hs2]
      exact List.mem_append_left _ (List.mem_map_of_mem _ hx)
    · intro e he
      have hs2c : s2.cache k = none := by
        rw [hs2, he]
        simpa using h1c
      have hs2f : s2.inflight k = none := by
        rw [hs2]
        simp
      refine ⟨hs2c, fun c2 => ?_⟩
      simp only [cacheStep, hs2c, hs2f]

/-- Witness for C9: three concurrent callers of one identifier, one inner
invocation, a failure broadcast to all three and not cached. -/
theorem cache_single_flight_witness :
    (CacheState.init WebcIdentifier Nat Nat Unit).cache ⟨"pkg", .Registry, VersionReq.star⟩
        = none ∧
    (CacheState.init WebcIdentifier Nat Nat Unit).inflight ⟨"pkg", .Registry, VersionReq.star⟩
        = none ∧
    ([0, 1, 2] : List Nat) ≠ [] ∧
    (let s1 := cacheRun (CacheState.init WebcIdentifier Nat Nat Unit)
        (([0, 1, 2] : List Nat).map
          (fun c => CacheEvent.request c ⟨"pkg", .Registry, VersionReq.star⟩))
     let s2 := cacheStep s1 (.complete ⟨"pkg", .Registry, VersionReq.star⟩ (.error ()))
     s1.innerCalls = ⟨"pkg", .Registry, VersionReq.star⟩ ::
        (CacheState.init WebcIdentifier Nat Nat Unit).innerCalls ∧
     s1.inflight ⟨"pkg", .Registry, VersionReq.star⟩ = some [0, 1, 2] ∧
     s2.delivered = ([0, 1, 2] : List Nat).map
        (fun c => (c, ⟨"pkg", .Registry, VersionReq.star⟩, Except.error ())) ++ s1.delivered ∧
     (∀ c ∈ ([0, 1, 2] : List Nat),
        (c, ⟨"pkg", .Registry, VersionReq.star⟩, Except.error ()) ∈ s2.delivered) ∧
     (∀ e, (Except.error () : Except Unit Nat) = .error e →
        s2.cache ⟨"pkg", .Registry, VersionReq.star⟩ = none ∧
        ∀ c2 : Nat, (cacheStep s2 (.request c2 ⟨"pkg", .Registry, VersionReq.star⟩)).innerCalls
          = ⟨"pkg", .Registry, VersionReq.star⟩ :: s2.innerCalls)) :=
  ⟨rfl, rfl, by decide,
    cache_single_flight WebcIdentifier Nat Nat Unit (CacheState.init WebcIdentifier Nat Nat Unit)
      ⟨"pkg", .Registry, VersionReq.star⟩ [0, 1, 2] (.error ()) rfl rfl (by decide)⟩

/-! ## The version-range round trip: digit lemmas -/

theorem ne_of_pred {p : Char → Bool} {c x : Char} (hc : p c = true) (hx : p x = false) :
    c ≠ x := by
  intro he
  rw [he, hx] at hc
  cases hc

theorem ofNat_digit_isDigit {d : Nat} (h : d < 10) : (Char.ofNat (48 + d)).isDigit = true := by
  interval_cases d <;> decide

theorem digitVal_ofNat {d : Nat} (h : d < 10) : digitVal (Char.ofNat (48 + d)) = d := by
  interval_cases d <;> decide

theorem ofNat_digit_eq_zero {d : Nat} (h : d < 10) (he : Char.ofNat (48 + d) = '0') :
    d = 0 := by
  interval_cases d
  · rfl
  all_goals exact absurd he (by decide)

theorem natDecimalAux_congr :
    ∀ f g n, n < f → n < g → natDecimalAux f n = natDecimalAux g n := by
  intro f
  induction f with
  | zero => intro g n h; exact absurd h (Nat.not_lt_zero n)
  | succ f ih =>
    intro g n hf hg
    cases g with
    | zero => exact absurd hg (Nat.not_lt_zero n)
    | succ g =>
      simp only [natDecimalAux]
      by_cases h10 : n < 10
      · simp [h10]
      · have hdiv : n / 10 < n := Nat.div_lt_self (by omega) (by omega)
        simp only [h10, if_false]
        rw [ih g (n / 10) (by omega) (by omega)]

theorem natDecimal_eq (n : Nat) : natDecimal n =
    if n < 10 then [Char.ofNat (48 + n)]
    else natDecimal (n / 10) ++ [Char.ofNat (48 + n % 10)] := by
  show natDecimalAux (n + 1) n = _
  by_cases h10 : n < 10
  · simp [natDecimalAux, h10]
  · have hdiv : n / 10 < n := Nat.div_lt_self (by omega) (by omega)
    simp only [natDecimalAux, h10, if_false]
    rw [natDecimalAux_congr n (n / 10 + 1) (n / 10) (by omega) (by omega)]
    rfl

theorem natDecimalAux_digits : ∀ f n, ∀ c ∈ natDecimalAux f n, c.isDigit = true := by
  intro f
  induction f with
  | zero => intro n c hc; cases hc
  | succ f ih =>
    intro n c hc
    simp only [natDecimalAux] at hc
    by_cases h10 : n < 10
    · rw [if_pos h10] at hc
      rcases List.mem_singleton.1 hc with rfl
      exact ofNat_digit_isDigit h10
    · rw [if_neg h10] at hc
      rcases List.mem_append.1 hc with hm | hm
      · exact ih _ c hm
      · rcases List.mem_singleton.1 hm with rfl
        exact ofNat_digit_isDigit (Nat.mod_lt n (by omega))

theorem natDecimal_digits {n : Nat} {c : Char} (h : c ∈ natDecimal n) : c.isDigit = true :=
  natDecimalAux_digits _ _ c h

theorem natDecimal_ne_nil (n : Nat) : natDecimal n ≠ [] := by
  rw [natDecimal_eq]
  split <;> simp

theorem digitsToNat_append (xs : List Char) (c : Char) :
    digitsToNat (xs ++ [c]) = digitsToNat xs * 10 + digitVal c := by
  simp [digitsToNat, List.foldl_append]

theorem digitsToNat_natDecimal (n : Nat) : digitsToNat (natDecimal n) = n := by
  induction n using Nat.strong_induction_on with
  | _ n ih =>
    rw [natDecimal_eq]
    by_cases h10 : n < 10
    · rw [if_pos h10]
      have : digitsToNat [Char.ofNat (48 + n)] = digitVal (Char.ofNat (48 + n)) := by
        simp [digitsToNat]
      rw [this, digitVal_ofNat h10]
    · have hdiv : n / 10 < n := Nat.div_lt_self (by omega) (by omega)
      rw [if_neg h10, digitsToNat_append, ih (n / 10) hdiv,
        digitVal_ofNat (Nat.mod_lt n (by omega))]
      omega

theorem natDecimal_head_ne_zero :
    ∀ n, 1 ≤ n → ∀ d ds, natDecimal n = d :: ds → d ≠ '0' := by
  intro n
  induction n using Nat.strong_induction_on with
  | _ n ih =>
    intro hn d ds hds
    rw [natDecimal_eq] at hds
    by_cases h10 : n < 10
    · rw [if_pos h10] at hds
      obtain ⟨hd, -⟩ := List.cons.inj hds.symm
      intro hzero
      rw [hd] at hzero
      exact absurd (ofNat_digit_eq_zero h10 hzero) (by omega)
    · have hdiv : n / 10 < n := Nat.div_lt_self (by omega) (by omega)
      rw [if_neg h10] at hds
      obtain ⟨e, es, hes⟩ := List.exists_cons_of_ne_nil (natDecimal_ne_nil (n / 10))
      rw [hes, List.cons_append] at hds
      obtain ⟨hd, -⟩ := List.cons.inj hds
      rw [← hd]
      exact ih (n / 10) hdiv (by omega) e es hes

theorem takeDigits_append :
    ∀ (ds rest : List Char), (∀ c ∈ ds, c.isDigit = true) →
      (∀ c, rest.head? = some c → c.isDigit = false) →
      takeDigits (ds ++ rest) = (ds, rest) := by
  intro ds
  induction ds with
  | nil =>
    intro rest _ hrest
    cases rest with
    | nil => rfl
    | cons r t => simp [takeDigits, hrest r rfl]
  | cons d t ih =>
    intro rest hds hrest
    have hd : d.isDigit = true := hds d (List.mem_cons_self d t)
    simp only [List.cons_append, takeDigits, hd, if_pos, List.append_eq,
      ih rest (fun c hc => hds c (List.mem_cons_of_mem d hc)) hrest]

theorem parseNat_natDecimal (n : Nat) (rest : List Char)
    (hrest : ∀ c, rest.head? = some c → c.isDigit = false) :
    parseNat (natDecimal n ++ rest) = some (n, rest) := by
  have ht := takeDigits_append (natDecimal n) rest (fun c hc => natDecimal_digits hc) hrest
  obtain ⟨d, ds, hds⟩ := List.exists_cons_of_ne_nil (natDecimal_ne_nil n)
  rw [hds] at ht
  rcases Nat.eq_zero_or_pos n with rfl | hpos
  · have h0 : natDecimal 0 = ['0'] := rfl
    rw [h0] at hds
    obtain ⟨hd, hds0⟩ := List.cons.inj hds.symm
    subst hd
    subst hds0
    have hval : digitsToNat ['0'] = 0 := by decide
    simp only [List.cons_append, List.nil_append] at ht
    simp [parseNat, h0, ht, hval]
  · have hd0 : d ≠ '0' := natDecimal_head_ne_zero n hpos d ds hds
    have hval : digitsToNat (d :: ds) = n := by rw [← hds, digitsToNat_natDecimal]
    simp only [List.cons_append] at ht
    simp [parseNat, hds, ht, hd0, hval]

/-! ## Trimming and splitting lemmas -/

theorem trimRight_no_space {cs : List Char} (h : ' ' ∉ cs) : trimRight cs = cs := by
  induction cs with
  | nil => rfl
  | cons c rest ih =>
    simp only [List.mem_cons, not_or] at h
    simp only [trimRight, ih h.2]
    cases rest with
    | nil => rw [if_neg (fun hc => h.1 hc.symm)]
    | cons r t => rfl

theorem trimSpaces_no_space {cs : List Char} (h : ' ' ∉ cs) : trimSpaces cs = cs := by
  have hdrop : cs.dropWhile (· = ' ') = cs := by
    cases cs with
    | nil => rfl
    | cons c rest =>
      simp only [List.mem_cons, not_or] at h
      have hcc : ¬c = ' ' := fun hc => h.1 hc.symm
      simp [List.dropWhile_cons, hcc]
  rw [trimSpaces, hdrop, trimRight_no_space h]

theorem trimSpaces_cons_space (cs : List Char) : trimSpaces (' ' :: cs) = trimSpaces cs := by
  simp [trimSpaces, List.dropWhile_cons]

theorem trimRight_head : ∀ {cs : List Char} {x : Char} {xs : List Char},
    trimRight cs = x :: xs → cs.head? = some x := by
  intro cs x xs h
  cases cs with
  | nil => cases h
  | cons c rest =>
    simp only [trimRight] at h
    rcases htr : trimRight rest with _ | ⟨r, rs⟩ <;> rw [htr] at h
    · by_cases hc : c = ' '
      · rw [if_pos hc] at h; cases h
      · rw [if_neg hc] at h
        obtain ⟨rfl, -⟩ := List.cons.inj h
        rfl
    · obtain ⟨rfl, -⟩ := List.cons.inj h
      rfl

theorem trimSpaces_star {cs : List Char} {h0 : Char} (hh : cs.head? = some h0)
    (hns : h0 ≠ ' ') (ht : trimSpaces cs = ['*']) : h0 = '*' := by
  cases cs with
  | nil => cases hh
  | cons c rest =>
    obtain rfl : c = h0 := by cases hh; rfl
    rw [trimSpaces, List.dropWhile_cons, if_neg (by simpa using hns)] at ht
    have := trimRight_head ht
    cases this
    rfl

theorem splitOnChar_ne_nil (sep : Char) (cs : List Char) : splitOnChar sep cs ≠ [] := by
  cases cs with
  | nil => simp [splitOnChar]
  | cons c rest =>
    simp only [splitOnChar]
    by_cases hc : c = sep
    · simp [hc]
    · rw [if_neg hc]
      rcases hsp : splitOnChar sep rest with _ | ⟨s, ss⟩ <;> simp

theorem splitOnChar_not_mem {sep : Char} {cs : List Char} (h : sep ∉ cs) :
    splitOnChar sep cs = [cs] := by
  induction cs with
  | nil => rfl
  | cons c rest ih =>
    simp only [List.mem_cons, not_or] at h
    have hcc : ¬c = sep := fun hc => h.1 hc.symm
    simp [splitOnChar, hcc, ih h.2]

theorem splitOnChar_append {sep : Char} {a : List Char} (ha : sep ∉ a) (b : List Char)
    {s : List Char} {ss : List (List Char)} (hb : splitOnChar sep b = s :: ss) :
    splitOnChar sep (a ++ b) = (a ++ s) :: ss := by
  induction a with
  | nil => simpa using hb
  | cons c rest ih =>
    simp only [List.mem_cons, not_or] at ha
    have hcc : ¬c = sep := fun hc => ha.1 hc.symm
    simp [List.cons_append, splitOnChar, hcc, List.append_eq, ih ha.2]

theorem splitOnChar_cons_sep (sep : Char) (b : List Char) :
    splitOnChar sep (sep :: b) = [] :: splitOnChar sep b := by
  simp [splitOnChar]

theorem splitOnChar_mem (sep : Char) : ∀ {cs : List Char} {c : Char}, c ∈ cs →
    c = sep ∨ ∃ p ∈ splitOnChar sep cs, c ∈ p := by
  intro cs
  induction cs with
  | nil => intro c hc; cases hc
  | cons a rest ih =>
    intro c hc
    by_cases ha : a = sep
    · subst ha
      rcases List.mem_cons.1 hc with hca | hr
      · exact Or.inl hca
      · rcases ih hr with h | ⟨p, hp, hcp⟩
        · exact Or.inl h
        · refine Or.inr ⟨p, ?_, hcp⟩
          rw [splitOnChar_cons_sep]
          exact List.mem_cons_of_mem _ hp
    · obtain ⟨s, ss, hsp⟩ : ∃ s ss, splitOnChar sep rest = s :: ss := by
        rcases h : splitOnChar sep rest with _ | ⟨s, ss⟩
        · exact absurd h (splitOnChar_ne_nil sep rest)
        · exact ⟨s, ss, rfl⟩
      have hsplit : splitOnChar sep (a :: rest) = (a :: s) :: ss := by
        simp only [splitOnChar, if_neg ha, hsp]
      rcases List.mem_cons.1 hc with hca | hr
      · exact Or.inr ⟨a :: s, by rw [hsplit]; exact List.mem_cons_self _ _,
          by rw [hca]; exact List.mem_cons_self _ _⟩
      · rcases ih hr with h | ⟨p, hp, hcp⟩
        · exact Or.inl h
        · rw [hsp] at hp
          rcases List.mem_cons.1 hp with hps | hss
          · exact Or.inr ⟨a :: p, by rw [hsplit, hps]; exact List.mem_cons_self _ _,
              List.mem_cons_of_mem _ hcp⟩
          · exact Or.inr ⟨p, by rw [hsplit]; exact List.mem_cons_of_mem _ hss, hcp⟩

theorem validPre_mem {pre : List Char} (h : validPre pre = true) {c : Char} (hc : c ∈ pre) :
    c.isAlphanum = true ∨ c = '-' ∨ c = '.' := by
  rcases splitOnChar_mem '.' hc with hdot | ⟨p, hp, hcp⟩
  · exact Or.inr (Or.inr hdot)
  · have hseg : validPreSegment p = true := by
      have hall := List.all_eq_true.1 (by simpa [validPre] using h)
      exact hall p hp
    cases p with
    | nil => cases hseg
    | cons x xs =>
      simp only [validPreSegment, Bool.and_eq_true, List.all_eq_true] at hseg
      have halnum := hseg.1 c hcp
      simp only [Bool.or_eq_true, decide_eq_true_eq] at halnum
      rcases halnum with ha | hd
      · exact Or.inl ha
      · exact Or.inr (Or.inl hd)

/-! ## Characters of a displayed comparator -/

theorem digit_not_space_comma {x : Char} (hx : x.isDigit = true) : x ≠ ' ' ∧ x ≠ ',' :=
  ⟨ne_of_pred hx (by decide), ne_of_pred hx (by decide)⟩

theorem digit_not_wildcard {x : Char} (hx : x.isDigit = true) : isWildcardChar x = false := by
  have h1 : x ≠ '*' := ne_of_pred hx (by decide)
  have h2 : x ≠ 'x' := ne_of_pred hx (by decide)
  have h3 : x ≠ 'X' := ne_of_pred hx (by decide)
  simp [isWildcardChar, h1, h2, h3]

theorem opChars_ok : ∀ op : Op, ∀ ch ∈ opChars op, ch ≠ ' ' ∧ ch ≠ ',' := by
  intro op
  cases op <;> decide

theorem compTail_no_space_comma {c : Comparator} (h : CompWF c) :
    ∀ ch ∈ compTail c, ch ≠ ' ' ∧ ch ≠ ',' := by
  intro ch hch
  rcases hm : c.minor with _ | m
  · simp only [compTail, hm] at hch
    by_cases hw : c.op = .wildcard
    · rw [if_pos hw] at hch
      simp only [List.mem_cons, List.not_mem_nil, or_false] at hch
      rcases hch with rfl | rfl <;> decide
    · rw [if_neg hw] at hch
      cases hch
  · simp only [compTail, hm] at hch
    rcases List.mem_cons.1 hch with rfl | hch2
    · decide
    rcases List.mem_append.1 hch2 with hd | hch3
    · exact digit_not_space_comma (natDecimal_digits hd)
    rcases hp : c.patch with _ | p
    · rw [hp] at hch3
      by_cases hw : c.op = .wildcard
      · rw [if_pos hw] at hch3
        simp only [List.mem_cons, List.not_mem_nil, or_false] at hch3
        rcases hch3 with rfl | rfl <;> decide
      · rw [if_neg hw] at hch3
        cases hch3
    · rw [hp] at hch3
      rcases List.mem_cons.1 hch3 with rfl | hch4
      · decide
      rcases List.mem_append.1 hch4 with hd | hch5
      · exact digit_not_space_comma (natDecimal_digits hd)
      rcases hpre : c.pre with _ | ⟨q, qs⟩
      · rw [hpre] at hch5
        simp at hch5
      · rw [hpre] at hch5
        simp only [List.isEmpty_cons, Bool.false_eq_true, if_false] at hch5
        rcases List.mem_cons.1 hch5 with rfl | hch6
        · decide
        · have hv : validPre c.pre = true := (h.pre_ok (by rw [hpre]; simp)).2
          have hmem := validPre_mem hv (by rw [hpre]; exact hch6)
          rcases hmem with ha | rfl | rfl
          · exact ⟨ne_of_pred ha (by decide), ne_of_pred ha (by decide)⟩
          · decide
          · decide

theorem comparatorDisplay_no_space_comma {c : Comparator} (h : CompWF c) :
    ∀ ch ∈ comparatorDisplay c, ch ≠ ' ' ∧ ch ≠ ',' := by
  intro ch hch
  simp only [comparatorDisplay] at hch
  rcases List.mem_append.1 hch with hch1 | hch2
  · rcases List.mem_append.1 hch1 with ho | hd
    · exact opChars_ok c.op ch ho
    · exact digit_not_space_comma (natDecimal_digits hd)
  · exact compTail_no_space_comma h ch hch2

theorem comparatorDisplay_head_spec (c : Comparator) :
    ∃ x xs, comparatorDisplay c = x :: xs ∧
      (x = '=' ∨ x = '>' ∨ x = '<' ∨ x = '~' ∨ x = '^' ∨ x.isDigit = true) := by
  obtain ⟨d, ds, hds⟩ := List.exists_cons_of_ne_nil (natDecimal_ne_nil c.major)
  have hd : d.isDigit = true := natDecimal_digits (hds ▸ List.mem_cons_self d ds)
  cases hop : c.op <;>
    simp only [comparatorDisplay, hop, opChars, List.nil_append, List.cons_append, hds]
  · exact ⟨'=', _, rfl, Or.inl rfl⟩
  · exact ⟨'>', _, rfl, Or.inr (Or.inl rfl)⟩
  · exact ⟨'>', _, rfl, Or.inr (Or.inl rfl)⟩
  · exact ⟨'<', _, rfl, Or.inr (Or.inr (Or.inl rfl))⟩
  · exact ⟨'<', _, rfl, Or.inr (Or.inr (Or.inl rfl))⟩
  · exact ⟨'~', _, rfl, Or.inr (Or.inr (Or.inr (Or.inl rfl)))⟩
  · exact ⟨'^', _, rfl, Or.inr (Or.inr (Or.inr (Or.inr (Or.inl rfl))))⟩
  · exact ⟨d, _, rfl, Or.inr (Or.inr (Or.inr (Or.inr (Or.inr hd))))⟩

/-! ## Parsing a displayed comparator -/

theorem parseOp_no_op {d : Char} (hd : d.isDigit = true) (rest : List Char) :
    parseOp (d :: rest) = (none, d :: rest) := by
  have h1 : ¬d = '<' := ne_of_pred hd (by decide)
  have h2 : ¬d = '>' := ne_of_pred hd (by decide)
  have h3 : ¬d = '=' := ne_of_pred hd (by decide)
  have h4 : ¬d = '~' := ne_of_pred hd (by decide)
  have h5 : ¬d = '^' := ne_of_pred hd (by decide)
  simp [parseOp, h1, h2, h3, h4, h5]

theorem parseOp_display {op : Op} (hop : op ≠ .wildcard) {d : Char} (hd : d.isDigit = true)
    (rest : List Char) :
    parseOp (opChars op ++ d :: rest) = (some op, d :: rest) := by
  have hne : ¬d = '=' := ne_of_pred hd (by decide)
  cases op with
  | exact => simp [opChars, parseOp]
  | greater => simp [opChars, parseOp, hne]
  | greaterEq => simp [opChars, parseOp]
  | less => simp [opChars, parseOp, hne]
  | lessEq => simp [opChars, parseOp]
  | tilde => simp [opChars, parseOp]
  | caret => simp [opChars, parseOp]
  | wildcard => exact absurd rfl hop

theorem afterMinor_patch (og : Option Op) (maj m p : Nat) (tail : List Char)
    (htail : ∀ x, tail.head? = some x → x.isDigit = false) :
    afterMinor og maj m ('.' :: (natDecimal p ++ tail)) = afterPatch og maj m p tail := by
  obtain ⟨d, ds, hds⟩ := List.exists_cons_of_ne_nil (natDecimal_ne_nil p)
  have hd : d.isDigit = true := natDecimal_digits (hds ▸ List.mem_cons_self d ds)
  have hpn := parseNat_natDecimal p tail htail
  rw [hds] at hpn
  simp only [List.cons_append] at hpn
  simp only [afterMinor, hds, List.cons_append, if_pos, digit_not_wildcard hd,
    Bool.false_eq_true, if_false, hpn]

theorem afterMajor_minor (og : Option Op) (maj m : Nat) (tail : List Char)
    (htail : ∀ x, tail.head? = some x → x.isDigit = false) :
    afterMajor og maj ('.' :: (natDecimal m ++ tail)) = afterMinor og maj m tail := by
  obtain ⟨d, ds, hds⟩ := List.exists_cons_of_ne_nil (natDecimal_ne_nil m)
  have hd : d.isDigit = true := natDecimal_digits (hds ▸ List.mem_cons_self d ds)
  have hpn := parseNat_natDecimal m tail htail
  rw [hds] at hpn
  simp only [List.cons_append] at hpn
  simp only [afterMajor, hds, List.cons_append, if_pos, digit_not_wildcard hd,
    Bool.false_eq_true, if_false, hpn]

theorem compTail_head (c : Comparator) : ∀ x, (compTail c).head? = some x → x.isDigit = false := by
  intro x hx
  rcases hm : c.minor with _ | m
  · simp only [compTail, hm] at hx
    by_cases hw : c.op = .wildcard
    · rw [if_pos hw] at hx
      cases hx
      decide
    · rw [if_neg hw] at hx
      cases hx
  · simp only [compTail, hm] at hx
    cases hx
    decide

theorem afterMajor_compTail {c : Comparator} (h : CompWF c) {og : Option Op}
    (hog : og = if c.op = .wildcard then none else some c.op) :
    afterMajor og c.major (compTail c) = some c := by
  obtain ⟨op, maj, minor, patch, pre⟩ := c
  by_cases hw : op = .wildcard
  · subst hw
    have hpatch : patch = none := (h.wild rfl).1
    have hpre : pre = [] := (h.wild rfl).2
    subst hpatch
    subst hpre
    have hogn : og = none := by simpa using hog
    subst hogn
    rcases minor with _ | m
    · have hct : compTail ⟨.wildcard, maj, none, none, []⟩ = ['.', '*'] := rfl
      show afterMajor none maj (compTail ⟨.wildcard, maj, none, none, []⟩) = _
      rw [hct]
      rfl
    · have hct : compTail ⟨.wildcard, maj, some m, none, []⟩
          = '.' :: (natDecimal m ++ ['.', '*']) := by
        simp [compTail]
      show afterMajor none maj (compTail ⟨.wildcard, maj, some m, none, []⟩) = _
      rw [hct, afterMajor_minor none maj m ['.', '*'] (by intro x hx; cases hx; decide)]
      rfl
  · have hogs : og = some op := by
      simp only [hw, if_false] at hog
      simpa using hog
    subst hogs
    rcases minor with _ | m
    · have hpatch : patch = none := by
        rcases patch with _ | p
        · rfl
        · exact absurd (h.patch_minor rfl) (by simp)
      subst hpatch
      have hpre : pre = [] := by
        by_contra hne
        have h2 := (h.pre_ok hne).1
        simp at h2
      subst hpre
      have hct : compTail ⟨op, maj, none, none, []⟩ = [] := by simp [compTail, hw]
      show afterMajor (some op) maj (compTail ⟨op, maj, none, none, []⟩) = _
      rw [hct]
      rfl
    · rcases patch with _ | p
      · have hpre : pre = [] := by
          by_contra hne
          have h2 := (h.pre_ok hne).1
          simp at h2
        subst hpre
        have hct : compTail ⟨op, maj, some m, none, []⟩ = '.' :: (natDecimal m ++ []) := by
          simp [compTail, hw]
        show afterMajor (some op) maj (compTail ⟨op, maj, some m, none, []⟩) = _
        rw [hct, afterMajor_minor (some op) maj m [] (by intro x hx; cases hx)]
        rfl
      · rcases hpre0 : pre with _ | ⟨q, qs⟩
        · subst hpre0
          have hct : compTail ⟨op, maj, some m, some p, []⟩
              = '.' :: (natDecimal m ++ ('.' :: (natDecimal p ++ []))) := by
            simp [compTail]
          show afterMajor (some op) maj (compTail ⟨op, maj, some m, some p, []⟩) = _
          rw [hct, afterMajor_minor (some op) maj m _ (by intro x hx; cases hx; decide),
            afterMinor_patch (some op) maj m p [] (by intro x hx; cases hx)]
          rfl
        · have hv : validPre pre = true := (h.pre_ok (by rw [hpre0]; simp)).2
          subst hpre0
          have hct : compTail ⟨op, maj, some m, some p, q :: qs⟩
              = '.' :: (natDecimal m ++ ('.' :: (natDecimal p ++ ('-' :: (q :: qs))))) := by
            simp [compTail]
          show afterMajor (some op) maj (compTail ⟨op, maj, some m, some p, q :: qs⟩) = _
          rw [hct, afterMajor_minor (some op) maj m _ (by intro x hx; cases hx; decide),
            afterMinor_patch (some op) maj m p ('-' :: (q :: qs))
              (by intro x hx; cases hx; decide)]
          simp [afterPatch, hv]

theorem parseComparator_display {c : Comparator} (h : CompWF c) :
    parseComparator (comparatorDisplay c) = some c := by
  have hns : ' ' ∉ comparatorDisplay c :=
    fun hm => (comparatorDisplay_no_space_comma h ' ' hm).1 rfl
  obtain ⟨d, ds, hds⟩ := List.exists_cons_of_ne_nil (natDecimal_ne_nil c.major)
  have hd : d.isDigit = true := natDecimal_digits (hds ▸ List.mem_cons_self d ds)
  have hdsp : ¬d = ' ' := fun he => absurd hd (by rw [he]; decide)
  have hpn := parseNat_natDecimal c.major (compTail c) (compTail_head c)
  rw [hds] at hpn
  simp only [List.cons_append] at hpn
  have hddec : (decide (d = ' ')) = false := decide_eq_false hdsp
  by_cases hw : c.op = .wildcard
  · have htrim : trimSpaces (comparatorDisplay c) = d :: (ds ++ compTail c) := by
      rw [trimSpaces_no_space hns]
      simp [comparatorDisplay, hw, opChars, hds]
    simp only [parseComparator, htrim, parseOp_no_op hd,
      List.dropWhile_cons, hddec, Bool.false_eq_true, if_false, hpn]
    exact afterMajor_compTail h (by simp [hw])
  · have htrim : trimSpaces (comparatorDisplay c)
        = opChars c.op ++ (d :: (ds ++ compTail c)) := by
      rw [trimSpaces_no_space hns]
      simp [comparatorDisplay, hds]
    simp only [parseComparator, htrim, parseOp_display hw hd,
      List.dropWhile_cons, hddec, Bool.false_eq_true, if_false, hpn]
    exact afterMajor_compTail h (by simp [hw])

/-! ## Well-formedness of parsed comparators -/

theorem afterPatch_wf {og : Option Op} (hog : og.getD .caret ≠ .wildcard) {maj minr pat : Nat} :
    ∀ {rest : List Char} {c : Comparator}, afterPatch og maj minr pat rest = some c → CompWF c := by
  intro rest c h
  cases rest with
  | nil =>
    obtain rfl := (Option.some.inj h)
    exact ⟨fun _ => rfl, fun hwc => absurd hwc hog, fun hne => absurd rfl hne⟩
  | cons x pre =>
    simp only [afterPatch] at h
    by_cases hx : x = '-'
    · rw [if_pos hx] at h
      by_cases hv : validPre pre = true
      · rw [if_pos hv] at h
        obtain rfl := (Option.some.inj h)
        exact ⟨fun _ => rfl, fun hwc => absurd hwc hog, fun _ => ⟨rfl, hv⟩⟩
      · rw [if_neg hv] at h
        cases h
    · rw [if_neg hx] at h
      cases h

theorem afterMinor_wf {og : Option Op} (hog : og.getD .caret ≠ .wildcard) {maj minr : Nat} :
    ∀ {rest : List Char} {c : Comparator}, afterMinor og maj minr rest = some c → CompWF c := by
  intro rest c h
  cases rest with
  | nil =>
    obtain rfl := (Option.some.inj h)
    exact ⟨fun _ => rfl, fun hwc => absurd hwc hog, fun hne => absurd rfl hne⟩
  | cons x rest2 =>
    simp only [afterMinor] at h
    split at h
    · split at h
      · cases h
      · split at h
        · split at h
          · obtain rfl := (Option.some.inj h)
            exact ⟨fun _ => rfl, fun _ => ⟨rfl, rfl⟩, fun hne => absurd rfl hne⟩
          · cases h
        · split at h
          · cases h
          · exact afterPatch_wf hog h
    · cases h

theorem afterMajor_wf {og : Option Op} (hog : og.getD .caret ≠ .wildcard) {maj : Nat} :
    ∀ {rest : List Char} {c : Comparator}, afterMajor og maj rest = some c → CompWF c := by
  intro rest c h
  cases rest with
  | nil =>
    obtain rfl := (Option.some.inj h)
    refine ⟨fun hp => ?_, fun hwc => absurd hwc hog, fun hne => absurd rfl hne⟩
    cases hp
  | cons x rest2 =>
    simp only [afterMajor] at h
    split at h
    · split at h
      · cases h
      · split at h
        · split at h
          · obtain rfl := (Option.some.inj h)
            refine ⟨fun hp => ?_, fun _ => ⟨rfl, rfl⟩, fun hne => absurd rfl hne⟩
            cases hp
          · cases h
        · split at h
          · cases h
          · exact afterMinor_wf hog h
    · cases h

theorem parseOp_getD (cs : List Char) : ((parseOp cs).1).getD .caret ≠ .wildcard := by
  cases cs with
  | nil => decide
  | cons c rest =>
    simp only [parseOp]
    split
    · cases rest with
      | nil => simp
      | cons c2 rest2 => split <;> (try split) <;> simp
    · split
      · cases rest with
        | nil => simp
        | cons c2 rest2 => split <;> (try split) <;> simp
      · split
        · simp
        · split
          · simp
          · split <;> simp

theorem parseComparator_wf {part : List Char} {c : Comparator}
    (h : parseComparator part = some c) : CompWF c := by
  simp only [parseComparator] at h
  rcases hpn : parseNat ((parseOp (trimSpaces part)).2.dropWhile (· = ' ')) with _ | ⟨maj, rest⟩
  · rw [hpn] at h
    cases h
  · rw [hpn] at h
    exact afterMajor_wf (parseOp_getD (trimSpaces part)) h

theorem parseComparators_mem : ∀ {ps : List (List Char)} {cs : List Comparator},
    parseComparators ps = some cs → ∀ c ∈ cs, ∃ p, parseComparator p = some c := by
  intro ps
  induction ps with
  | nil =>
    intro cs h c hc
    obtain rfl := (Option.some.inj h)
    cases hc
  | cons p ps ih =>
    intro cs h c hc
    simp only [parseComparators] at h
    rcases hp : parseComparator p with _ | cp
    · rw [hp] at h
      cases h
    · rw [hp] at h
      rcases hps : parseComparators ps with _ | cps
      · rw [hps] at h
        cases h
      · rw [hps] at h
        obtain rfl := (Option.some.inj h)
        rcases List.mem_cons.1 hc with hceq | hmem
        · exact ⟨p, hp.trans (by rw [hceq])⟩
        · exact ih hps c hmem

theorem reqParse_wf {v : List Char} {r : VersionReq} (h : reqParse v = some r) :
    ∀ c ∈ r.comparators, CompWF c := by
  simp only [reqParse] at h
  by_cases hstar : trimSpaces v = ['*']
  · rw [if_pos hstar] at h
    obtain rfl := (Option.some.inj h)
    intro c hc
    cases hc
  · rw [if_neg hstar] at h
    rcases hps : parseComparators (splitOnChar ',' v) with _ | comps
    · rw [hps] at h
      cases h
    · rw [hps] at h
      obtain rfl := (Option.some.inj h)
      intro c hc
      obtain ⟨p, hp⟩ := parseComparators_mem hps c hc
      exact parseComparator_wf hp

/-! ## Re-parsing a displayed requirement -/

theorem parseComparator_cons_space (part : List Char) :
    parseComparator (' ' :: part) = parseComparator part := by
  simp only [parseComparator, trimSpaces_cons_space]

theorem splitOnChar_display : ∀ {rest : List Comparator} {c : Comparator}, CompWF c →
    (∀ x ∈ rest, CompWF x) →
    splitOnChar ',' (comparatorDisplay c ++ reqDisplayTail rest)
      = comparatorDisplay c :: rest.map (fun x => ' ' :: comparatorDisplay x) := by
  intro rest
  induction rest with
  | nil =>
    intro c hc _
    have hnc : ',' ∉ comparatorDisplay c :=
      fun hm => (comparatorDisplay_no_space_comma hc _ hm).2 rfl
    simp only [reqDisplayTail, List.append_nil, List.map_nil]
    exact splitOnChar_not_mem hnc
  | cons c2 rest2 ih =>
    intro c hc hrest
    have hnc : ',' ∉ comparatorDisplay c :=
      fun hm => (comparatorDisplay_no_space_comma hc _ hm).2 rfl
    have hc2 : CompWF c2 := hrest c2 (List.mem_cons_self _ _)
    have hrest2 : ∀ x ∈ rest2, CompWF x := fun x hx => hrest x (List.mem_cons_of_mem _ hx)
    have hnsp : ¬(' ' : Char) = ',' := by decide
    have hY : splitOnChar ',' (' ' :: (comparatorDisplay c2 ++ reqDisplayTail rest2))
        = (' ' :: comparatorDisplay c2) :: rest2.map (fun x => ' ' :: comparatorDisplay x) := by
      simp only [splitOnChar, if_neg hnsp, ih hc2 hrest2]
    have hb := splitOnChar_append hnc
      (',' :: (' ' :: (comparatorDisplay c2 ++ reqDisplayTail rest2)))
      (by rw [splitOnChar_cons_sep, hY])
    simpa [reqDisplayTail] using hb

theorem parseComparators_display_tail : ∀ {rest : List Comparator},
    (∀ x ∈ rest, CompWF x) →
    parseComparators (rest.map (fun x => ' ' :: comparatorDisplay x)) = some rest := by
  intro rest
  induction rest with
  | nil => intro _; rfl
  | cons c2 rest2 ih =>
    intro h
    have hc2 := h c2 (List.mem_cons_self _ _)
    have hpc : parseComparator (' ' :: comparatorDisplay c2) = some c2 :=
      (parseComparator_cons_space _).trans (parseComparator_display hc2)
    simp only [List.map_cons, parseComparators, hpc,
      ih (fun x hx => h x (List.mem_cons_of_mem _ hx))]

theorem reqParse_display {r : VersionReq} (h : ∀ c ∈ r.comparators, CompWF c) :
    reqParse (reqDisplay r) = some r := by
  rcases r with ⟨comps⟩
  rcases comps with _ | ⟨c, rest⟩
  · rfl
  · have hwfc : CompWF c := h c (List.mem_cons_self c rest)
    have hwfr : ∀ x ∈ rest, CompWF x := fun x hx => h x (List.mem_cons_of_mem c hx)
    obtain ⟨x, xs, hxxs, hx⟩ := comparatorDisplay_head_spec c
    have hD : reqDisplay ⟨c :: rest⟩ = comparatorDisplay c ++ reqDisplayTail rest := rfl
    have hxs : x ≠ ' ' := by
      rcases hx with rfl | rfl | rfl | rfl | rfl | hd
      · decide
      · decide
      · decide
      · decide
      · decide
      · exact (digit_not_space_comma hd).1
    have hxstar : x ≠ '*' := by
      rcases hx with rfl | rfl | rfl | rfl | rfl | hd
      · decide
      · decide
      · decide
      · decide
      · decide
      · exact ne_of_pred hd (by decide)
    have hhead : (reqDisplay ⟨c :: rest⟩).head? = some x := by
      rw [hD, hxxs]
      rfl
    have hnstar : ¬trimSpaces (reqDisplay ⟨c :: rest⟩) = ['*'] :=
      fun hts => hxstar (trimSpaces_star hhead hxs hts)
    have hsplit : splitOnChar ',' (reqDisplay ⟨c :: rest⟩)
        = comparatorDisplay c :: rest.map (fun x => ' ' :: comparatorDisplay x) := by
      rw [hD]
      exact splitOnChar_display hwfc hwfr
    have hpcs : parseComparators
        (comparatorDisplay c :: rest.map (fun x => ' ' :: comparatorDisplay x))
        = some (c :: rest) := by
      simp only [parseComparators, parseComparator_display hwfc,
        parseComparators_display_tail hwfr]
    simp only [reqParse, if_neg hnstar, hsplit, hpcs]

/-- C4: for every identifier produced by a successful parse (hence with
locator `Registry`), formatting yields exactly `full_name@version` with no
locator suffix, and re-parsing the formatted string yields an identifier equal
to the original. -/
theorem registry_display_roundtrip (s : String) (id : WebcIdentifier)
    (h : fromStr s = .ok id) :
    id.display = id.full_name ++ "@" ++ String.mk (reqDisplay id.version) ∧
    fromStr id.display = .ok id := by
  obtain ⟨hloc, hname, v, hv⟩ := fromStr_ok h
  have hreq : reqParse (reqDisplay id.version) = some id.version :=
    reqParse_display (reqParse_wf hv)
  have hdisp : id.display = id.full_name ++ "@" ++ String.mk (reqDisplay id.version) := by
    simp only [WebcIdentifier.display, hloc]
    rw [String.append_empty]
  refine ⟨hdisp, ?_⟩
  rw [hdisp]
  have hdata : (id.full_name ++ "@" ++ String.mk (reqDisplay id.version)).data
      = id.full_name.data ++ '@' :: reqDisplay id.version := by
    simp [String.data_append]
  have h1 : '@' ∉ id.full_name.data := fun hat => absurd (hname '@' hat) (by decide)
  have hsplit : splitOnceAt '@' (id.full_name.data ++ '@' :: reqDisplay id.version)
      = some (id.full_name.data, reqDisplay id.version) := splitOnceAt_append_sep h1 _
  simp only [fromStr, hdata, hsplit, findInvalid_eq_none hname 0, hreq]
  rw [← hloc]

/-- Witness for C4 at the spec's example `"namespace/package@1.0.0"` (whose
canonical formatted form is `"namespace/package@^1.0.0"`). -/
theorem registry_display_roundtrip_witness :
    fromStr "namespace/package@1.0.0"
      = .ok ⟨"namespace/package", .Registry, ⟨[⟨.caret, 1, some 0, some 0, []⟩]⟩⟩ ∧
    ((⟨"namespace/package", .Registry, ⟨[⟨.caret, 1, some 0, some 0, []⟩]⟩⟩ :
        WebcIdentifier).display
      = "namespace/package" ++ "@"
        ++ String.mk (reqDisplay ⟨[⟨.caret, 1, some 0, some 0, []⟩]⟩) ∧
     fromStr (⟨"namespace/package", .Registry, ⟨[⟨.caret, 1, some 0, some 0, []⟩]⟩⟩ :
        WebcIdentifier).display
      = .ok ⟨"namespace/package", .Registry, ⟨[⟨.caret, 1, some 0, some 0, []⟩]⟩⟩) :=
  ⟨by decide, registry_display_roundtrip "namespace/package@1.0.0" _ (by decide)⟩

end Resolver
